import Mathlib

/-!
# Verification of the `simplelru` LRU cache (`src/simplelru/lruImpl.go`)

Shallow embedding of the Go package `simplelru`. The Go structures are
modelled as follows:

* `map[interface{}]*list.Element` becomes an association list
  `List (K × Ptr)` where `Ptr := Option Nat`: a `*list.Element` is an
  optional identifier into a heap of list elements, `none` modelling a
  nil pointer.
* `container/list.List` becomes `List Nat`, the element identifiers in
  order from front (most recently used) to back (least recently used).
* The contents of each element (`Element.Value`, which holds an `*entry`)
  live in a heap `List (Nat × entry K V)`.
* `interface{}` keys and values are `Option K` / `Option V` where `none`
  models Go `nil`; `time.Time` and `time.Duration` are `Int` (nanoseconds),
  `time.Since t` at instant `now` being `now - t`.
* A nil-pointer dereference (a Go runtime panic) is modelled by the
  operation returning `none`: every operation that can dereference a
  possibly-nil element returns an `Option`.
* The eviction callback `onEvicted` is modelled by a flag `hasCb`
  (whether `c.onEvicted != nil`) plus an explicit event list in each
  operation's result, recording the `(key, value)` arguments of each
  callback invocation in order.
-/

namespace Simplelru

/-- Association-list lookup, modelling a Go map read `m[k]` (the returned
`Option` is the `ok` flag plus value). -/
def alookup {α β : Type} [DecidableEq α] (k : α) : List (α × β) → Option β
  | [] => none
  | (a, b) :: rest => if a = k then some b else alookup k rest

/-- Association-list write, modelling a Go map assignment `m[k] = v`:
replaces the binding in place if present, otherwise appends it. -/
def aupsert {α β : Type} [DecidableEq α] (k : α) (v : β) :
    List (α × β) → List (α × β)
  | [] => [(k, v)]
  | (a, b) :: rest => if a = k then (k, v) :: rest else (a, b) :: aupsert k v rest

/-- Association-list delete, modelling Go `delete(m, k)`. -/
def adelete {α β : Type} [DecidableEq α] (k : α) :
    List (α × β) → List (α × β)
  | [] => []
  | (a, b) :: rest => if a = k then rest else (a, b) :: adelete k rest

/-- A `*list.Element`: `none` is a nil pointer, `some id` points at the
heap slot `id`. -/
abbrev Ptr := Option Nat

/-- The Go struct `entry{key, value, updatedAt}`; `value` is an
`interface{}`, hence possibly nil. -/
structure entry (K V : Type) where
  key : K
  value : Option V
  updatedAt : Int
deriving DecidableEq, Repr

/-- The Go struct `LRU`. `cache` is the key → element index, `evictList`
the recency list front-to-back, `heap` the store of list elements,
`hasCb` whether `onEvicted != nil`. -/
structure LRU (K V : Type) where
  size : Int
  ttl : Int
  cache : List (K × Ptr)
  evictList : List Nat
  heap : List (Nat × entry K V)
  hasCb : Bool
deriving DecidableEq, Repr

/-- Arguments of one eviction-callback invocation. -/
abbrev Evt (K V : Type) := K × Option V

variable {K V : Type} [DecidableEq K]

/-- `NewLRU(size, ttl, onEvict)`: sizes and ttls `≤ 0` are normalized to
`0` (`NoLimitSize` / `NoLimitTTL`); the cache starts empty. The Go
function's error result is always nil and is omitted. -/
def NewLRU (size ttl : Int) (hasCb : Bool) : LRU K V :=
  { size := if size ≤ 0 then 0 else size
    ttl := if ttl ≤ 0 then 0 else ttl
    cache := []
    evictList := []
    heap := []
    hasCb := hasCb }

/-- `c.Len()`: the length of the recency list. -/
def Len (c : LRU K V) : Nat := c.evictList.length

/-- `list.MoveToFront(e)` for an already-dereferenced element `id`: if the
element is in this list it is relinked at the front, otherwise (Go's
`e.list != l` guard) the call is a no-op. -/
def moveToFront (id : Nat) (l : List Nat) : List Nat :=
  if l.contains id then id :: l.erase id else l

/-- `c.removeElement(e)`: `evictList.Remove(e)` dereferences `e` (nil →
panic), the element's entry is read (`e.Value.(*entry)`), the key is
deleted from the index, and the callback fires if non-nil. -/
def removeElement (c : LRU K V) (p : Ptr) :
    Option (LRU K V × List (Evt K V)) := do
  let id ← p
  let l := c.evictList.erase id
  let kv ← alookup id c.heap
  some ({ c with evictList := l, cache := adelete kv.key c.cache },
        if c.hasCb then [(kv.key, kv.value)] else [])

/-- `c.removeOldest()`: removes the back element if the list is non-empty. -/
def removeOldest (c : LRU K V) : Option (LRU K V × List (Evt K V)) :=
  match c.evictList.getLast? with
  | some id => removeElement c (some id)
  | none => some (c, [])

/-- `c.expired(k)`: with unlimited ttl nothing expires; otherwise the key
is looked up and, when present, its element is dereferenced (nil → panic)
and the entry is unexpired iff `now - updatedAt ≤ ttl`; in every other
case the answer is `true`. -/
def expired (c : LRU K V) (k : K) (now : Int) : Option Bool :=
  if c.ttl = 0 then some false
  else
    match alookup k c.cache with
    | some p => do
        let id ← p
        let e ← alookup id c.heap
        if now - e.updatedAt ≤ c.ttl then some false else some true
    | none => some true

/-- `c.Set(k, v)`: nil key or value → silent no-op. Otherwise a fresh
entry is built with `updatedAt = now`; if the key is already indexed its
element is overwritten (`item.Value = e`, a panic when the stored handle
is nil) and moved to the front, and if the key is new the source stores
the zero-value handle: `c.cache[k] = item` with `item` still nil — the
entry is never pushed onto the recency list. Then, if the capacity is
bounded and exceeded, the oldest element is removed. -/
def Set (c : LRU K V) (k : Option K) (v : Option V) (now : Int) :
    Option (LRU K V × List (Evt K V)) :=
  match k, v with
  | some k, some v =>
    let e : entry K V := ⟨k, some v, now⟩
    let step : Option (LRU K V) :=
      match alookup k c.cache with
      | some item =>
        match item with
        | some id =>
            some { c with heap := aupsert id e c.heap,
                          evictList := moveToFront id c.evictList }
        | none => none
      | none => some { c with cache := aupsert k none c.cache }
    match step with
    | none => none
    | some c1 =>
        if c1.size ≠ 0 ∧ (c1.evictList.length : Int) > c1.size then
          removeOldest c1
        else some (c1, [])
  | _, _ => some (c, [])

/-- `c.Get(k)`: if the key is indexed and not expired, the element is
moved to the front (nil handle → panic) and its value returned, a nil
stored value being reported as not-found; otherwise `(nil, false)`. -/
def Get (c : LRU K V) (k : K) (now : Int) :
    Option ((Option V × Bool) × LRU K V) :=
  match alookup k c.cache with
  | some item => do
      let ex ← expired c k now
      if ex then some ((none, false), c)
      else
        match item with
        | some id =>
            let c2 := { c with evictList := moveToFront id c.evictList }
            match alookup id c.heap with
            | some e =>
                match e.value with
                | none => some ((none, false), c2)
                | some v => some ((some v, true), c2)
            | none => none
        | none => none
  | none => some ((none, false), c)

/-- `c.Contains(k)`: key indexed and not expired; `expired` is only
evaluated when the key is present (Go's `&&` short-circuits). -/
def Contains (c : LRU K V) (k : K) (now : Int) : Option Bool :=
  match alookup k c.cache with
  | some _ => do
      let ex ← expired c k now
      some (!ex)
  | none => some false

/-- `c.Peek(k)`: like `Get` without the move-to-front; note the source
returns `nil, ok` in the fall-through, so a present-but-expired key
yields `(nil, true)`. -/
def Peek (c : LRU K V) (k : K) (now : Int) : Option (Option V × Bool) :=
  match alookup k c.cache with
  | some item => do
      let ex ← expired c k now
      if ex then some (none, true)
      else
        match item with
        | some id =>
            match alookup id c.heap with
            | some e => some (e.value, true)
            | none => none
        | none => none
  | none => some (none, false)

/-- `c.Remove(k)`: removes the element unconditionally when indexed
(expired or not), returning whether a removal happened. -/
def Remove (c : LRU K V) (k : K) :
    Option (Bool × LRU K V × List (Evt K V)) :=
  match alookup k c.cache with
  | some item => do
      let (c2, evts) ← removeElement c item
      some (true, c2, evts)
  | none => some (false, c, [])

/-- `c.RemoveOldest()`: removes the back element and returns its key and
value; `(nil, nil, false)` on an empty list. -/
def RemoveOldest (c : LRU K V) :
    Option ((Option K × Option V × Bool) × LRU K V × List (Evt K V)) :=
  match c.evictList.getLast? with
  | some id => do
      let (c2, evts) ← removeElement c (some id)
      let kv ← alookup id c.heap
      some ((some kv.key, kv.value, true), c2, evts)
  | none => some ((none, none, false), c, [])

/-- The loop body of `c.Keys()`: walk element ids back-to-front (the
argument list is `evictList.reverse`), dereference each element, stop as
soon as `expired` holds for its key, otherwise collect the key. -/
def keysFrom (c : LRU K V) (now : Int) : List Nat → Option (List K)
  | [] => some []
  | id :: rest => do
      let e ← alookup id c.heap
      let ex ← expired c e.key now
      if ex then some []
      else do
        let ks ← keysFrom c now rest
        some (e.key :: ks)

/-- `c.Keys()`: traverses from `evictList.Back()` via `Prev()`, i.e. the
reversed recency list. -/
def Keys (c : LRU K V) (now : Int) : Option (List K) :=
  keysFrom c now c.evictList.reverse

/-- The range loop of `c.Purge()`: for each index binding, when the
callback is non-nil the element is dereferenced (nil → panic) and the
callback fires with the entry's value. -/
def purgeEvts (hasCb : Bool) (heap : List (Nat × entry K V)) :
    List (K × Ptr) → Option (List (Evt K V))
  | [] => some []
  | (k, p) :: rest =>
      if hasCb then do
        let id ← p
        let e ← alookup id heap
        let evts ← purgeEvts hasCb heap rest
        some ((k, e.value) :: evts)
      else purgeEvts hasCb heap rest

/-- `c.Purge()`: fires the callback for every index binding, deletes all
bindings, and re-initializes the list. -/
def Purge (c : LRU K V) : Option (LRU K V × List (Evt K V)) := do
  let evts ← purgeEvts c.hasCb c.heap c.cache
  some ({ c with cache := [], evictList := [] }, evts)

/-- The eviction loop of `c.Resize`: `diff` iterations of `removeOldest`. -/
def resizeLoop : Nat → LRU K V → Option (LRU K V × List (Evt K V))
  | 0, c => some (c, [])
  | n + 1, c => do
      let (c1, e1) ← removeOldest c
      let (c2, e2) ← resizeLoop n c1
      some (c2, e1 ++ e2)

/-- `c.Resize(size)`: computes `diff = Len() - size` clamped at 0, runs
`removeOldest` that many times, stores `size` unnormalized, and returns
`diff`. -/
def Resize (c : LRU K V) (newSize : Int) :
    Option (Int × LRU K V × List (Evt K V)) := do
  let d : Int := (Len c : Int) - newSize
  let diff : Int := if d < 0 then 0 else d
  let (c1, evts) ← resizeLoop diff.toNat c
  some (diff, { c1 with size := newSize }, evts)

/-! ## Invariants and spec-side definitions -/

/-- Well-formedness of the element store: the recency list holds distinct
ids and every id on it has an entry in the heap (every `*list.Element` on
the list is a valid, dereferenceable pointer). -/
def HeapOK (c : LRU K V) : Prop :=
  c.evictList.Nodup ∧ ∀ id ∈ c.evictList, ∃ e, alookup id c.heap = some e

/-- The index chain is intact: every element on the recency list has a
heap entry whose key is indexed back to that same element. This is what
the spec's "index entry exists iff list entry exists" invariant gives. -/
def ChainOK (c : LRU K V) : Prop :=
  ∀ id ∈ c.evictList, ∃ e, alookup id c.heap = some e ∧
    alookup e.key c.cache = some (some id)

/-- Expiry of an entry, computed directly from the entry (used to state
what `expired` computes once the pointer chain is intact). -/
def entryExpired (c : LRU K V) (e : entry K V) (now : Int) : Bool :=
  decide (c.ttl ≠ 0 ∧ c.ttl < now - e.updatedAt)

/-- Modelled from the spec's words, for comparison with `Keys`: walk the
recency list from the back (oldest) toward the front, keep taking keys
while the entry is unexpired, and stop at the first expired entry. -/
def KeysSpec (c : LRU K V) (now : Int) : List K :=
  ((c.evictList.reverse.filterMap (fun id => alookup id c.heap)).takeWhile
      (fun e => !entryExpired c e now)).map (fun e => e.key)

/-! ## Concrete reachable states

States reached from `NewLRU` by public operations, used to settle the
claims about reachable behavior. The Go source's `Set`, on a new key,
stores the zero-value `*list.Element` (nil) in the index and never
pushes the entry onto the recency list, so these states have nil handles
and an empty list. -/

/-- State after `NewLRU(0, 0, nil)` followed by `Set(1, "a")`. -/
def afterSet1 : LRU Int String :=
  { size := 0, ttl := 0, cache := [(1, none)], evictList := [], heap := [],
    hasCb := false }

/-- State after `NewLRU(2, 0, cb)` and `Set(1, "a")`. -/
def cap2a : LRU Int String :=
  { size := 2, ttl := 0, cache := [(1, none)], evictList := [], heap := [],
    hasCb := true }

/-- State after `NewLRU(2, 0, cb)`, `Set(1, "a")`, `Set(2, "b")`. -/
def cap2b : LRU Int String :=
  { size := 2, ttl := 0, cache := [(1, none), (2, none)], evictList := [],
    heap := [], hasCb := true }

/-- State after `NewLRU(2, 0, cb)`, `Set(1,"a")`, `Set(2,"b")`, `Set(3,"c")`. -/
def cap2c : LRU Int String :=
  { size := 2, ttl := 0, cache := [(1, none), (2, none), (3, none)],
    evictList := [], heap := [], hasCb := true }

/-! ## Concrete well-formed states

Hand-built states whose element pointers are intact (what the list/index
would look like were `Set`'s new-key branch to push the entry), used to
settle the claims about the per-operation algorithms. -/

/-- A well-formed one-entry state: key `1 ↦ "a"` at element 0, unlimited
size and ttl, callback present. -/
def resizeState : LRU Int String :=
  { size := 0, ttl := 0, cache := [(1, some 0)], evictList := [0],
    heap := [(0, ⟨1, some "a", 0⟩)], hasCb := true }

/-- A well-formed one-entry state with `ttl = 5`, the entry last updated
at time 0. -/
def expState : LRU Int String :=
  { size := 0, ttl := 5, cache := [(1, some 0)], evictList := [0],
    heap := [(0, ⟨1, some "a", 0⟩)], hasCb := false }

/-- A well-formed three-entry state with `ttl = 5`; front-to-back the
list is `1, 2, 3` (so `3` is oldest). Entry 2 was last updated at time 0,
entries 1 and 3 at times 9 and 8: at `now = 10` the middle entry (from
the back) is expired while its neighbours are not. -/
def keysState : LRU Int String :=
  { size := 0, ttl := 5,
    cache := [(1, some 10), (2, some 11), (3, some 12)],
    evictList := [10, 11, 12],
    heap := [(10, ⟨1, some "a", 9⟩), (11, ⟨2, some "b", 0⟩),
             (12, ⟨3, some "c", 8⟩)],
    hasCb := false }

/-- C1: Set on a previously absent key does not insert the entry into the
recency list (it stores a nil element handle in the index), and the
immediately following Get dereferences that nil handle and panics
(modelled as `none`) instead of returning `("a", true)`. -/
theorem c1_set_then_get_panics :
    Set (NewLRU 0 0 false : LRU Int String) (some 1) (some "a") 100 =
      some (afterSet1, []) ∧
    afterSet1.evictList = [] ∧
    Get afterSet1 1 100 = none := by
  decide

/-- C2: public operations are not total on reachable states: after
`Set(1, "a")` on a fresh cache, a second `Set(1, "b")` panics writing
`item.Value` through the stored nil handle, `Remove(1)` panics inside
`evictList.Remove(nil)`, and `Peek(1)` panics dereferencing the nil
element. -/
theorem c2_operations_panic :
    Set afterSet1 (some 1) (some "b") 200 = none ∧
    Remove afterSet1 1 = none ∧
    Peek afterSet1 1 300 = none := by
  decide

/-- C3: the index/recency-list invariant is broken after one operation:
from a fresh cache, `Set(1, "a")` leaves key 1 in the index (bound to a
nil handle) while the recency list is empty, so "indexed iff present in
the list" fails on a reachable state. -/
theorem c3_invariant_broken :
    Set (NewLRU 0 0 false : LRU Int String) (some 1) (some "a") 100 =
      some (afterSet1, []) ∧
    alookup (1 : Int) afterSet1.cache = some none ∧
    afterSet1.evictList = [] := by
  decide

/-- C4: in the concrete capacity-2 scenario `Set(1,"a")`, `Set(2,"b")`,
`Set(3,"c")`, no eviction-callback event is ever produced (each event
list is empty), `Len()` ends at 0 rather than 2, and `Contains(1)`
returns true rather than false: entries never reach the recency list, so
capacity eviction never triggers. -/
theorem c4_capacity_scenario_diverges :
    Set (NewLRU 2 0 true : LRU Int String) (some 1) (some "a") 1 =
      some (cap2a, []) ∧
    Set cap2a (some 2) (some "b") 2 = some (cap2b, []) ∧
    Set cap2b (some 3) (some "c") 3 = some (cap2c, []) ∧
    Len cap2c = 0 ∧
    Contains cap2c 1 3 = some true := by
  decide

/-- C9: `Set` with a nil key or a nil value is a silent no-op: the state
is returned unchanged and no eviction-callback event is produced. -/
theorem c9_set_nil_noop (c : LRU K V) (k : Option K) (v : Option V)
    (now : Int) (h : k = none ∨ v = none) :
    Set c k v now = some (c, []) := by
  rcases h with h | h
  · subst h; cases v <;> rfl
  · subst h; cases k <;> rfl

/-- Witness for C9 at a concrete input: a nil key on a fresh cache. -/
theorem c9_witness :
    Set (NewLRU 0 0 false : LRU Int String) none (some "a") 5 =
      some (NewLRU 0 0 false, []) :=
  c9_set_nil_noop (NewLRU 0 0 false) none (some "a") 5 (Or.inl rfl)

/-! ## Behavior of the eviction loop on well-formed states -/

theorem removeOldest_concat (c : LRU K V) (l : List Nat) (id : Nat)
    (e : entry K V) (hl : c.evictList = l ++ [id]) (hnotin : id ∉ l)
    (he : alookup id c.heap = some e) :
    removeOldest c =
      some ({ c with evictList := l, cache := adelete e.key c.cache },
            if c.hasCb then [(e.key, e.value)] else []) := by
  unfold removeOldest removeElement
  rw [hl, List.getLast?_concat]
  simp only [Option.bind_eq_bind, Option.some_bind, he]
  rw [List.erase_append_right _ hnotin]
  simp

theorem resizeLoop_spec (n : Nat) (c : LRU K V) (h : HeapOK c)
    (hcb : c.hasCb = true) :
    ∃ c' evts, resizeLoop n c = some (c', evts) ∧
      c'.size = c.size ∧ c'.ttl = c.ttl ∧ c'.heap = c.heap ∧
      c'.hasCb = c.hasCb ∧
      c'.evictList = c.evictList.take (c.evictList.length - n) ∧
      evts.length = min n c.evictList.length := by
  induction n generalizing c with
  | zero => exact ⟨c, [], rfl, rfl, rfl, rfl, rfl, by simp, by simp⟩
  | succ n ih =>
      rcases List.eq_nil_or_concat c.evictList with hnil | ⟨l, id, hl⟩
      · have hro : removeOldest c = some (c, []) := by
          unfold removeOldest; rw [hnil]; rfl
        obtain ⟨c', evts, hloop, h1, h2, h3, h4, h5, h6⟩ := ih c h hcb
        refine ⟨c', evts, ?_, h1, h2, h3, h4, ?_, ?_⟩
        · simp [resizeLoop, hro, hloop]
        · rw [h5, hnil]; simp
        · rw [h6, hnil]; simp
      · have hl' : c.evictList = l ++ [id] := by rw [hl, List.concat_eq_append]
        have hnd := h.1
        rw [hl'] at hnd
        have hnotin : id ∉ l := by
          rw [List.nodup_append] at hnd
          intro hm
          exact hnd.2.2 hm (List.mem_singleton_self id)
        obtain ⟨e, he⟩ := h.2 id (by rw [hl']; simp)
        have hro := removeOldest_concat c l id e hl' hnotin he
        simp only [hcb, if_true] at hro
        have h1ok :
            HeapOK { c with evictList := l, cache := adelete e.key c.cache } :=
          ⟨(List.nodup_append.1 hnd).1,
           fun id' hid' => h.2 id' (by rw [hl']; exact List.mem_append_left _ hid')⟩
        obtain ⟨c', evts, hloop, h1, h2, h3, h4, h5, h6⟩ := ih _ h1ok hcb
        rw [hcb] at hloop
        dsimp only at h5 h6
        refine ⟨c', (e.key, e.value) :: evts, ?_, h1, h2, h3, h4, ?_, ?_⟩
        · simp [resizeLoop, hro, hloop]
        · rw [h5, hl']
          simp only [List.take_append_eq_append_take, List.length_append,
            List.length_singleton]
          have h0 : l.length + 1 - (n + 1) - l.length = 0 := by omega
          have h1' : l.length + 1 - (n + 1) = l.length - n := by omega
          rw [h0, h1', List.take_zero, List.append_nil]
        · rw [hl']
          simp only [List.length_cons, List.length_append,
            List.length_singleton, List.length_nil, h6]
          omega

theorem Resize_eq (c : LRU K V) (n : Int) :
    Resize c n =
      (resizeLoop ((if (Len c : Int) - n < 0 then 0
                    else (Len c : Int) - n).toNat) c).map
        (fun r => (if (Len c : Int) - n < 0 then 0 else (Len c : Int) - n,
                   { r.1 with size := n }, r.2)) := by
  simp only [Resize, Option.bind_eq_bind]
  cases hr : resizeLoop ((if (Len c : Int) - n < 0 then 0
      else (Len c : Int) - n).toNat) c with
  | none => rfl
  | some r => cases r with | mk c1 evts => rfl

/-- C5 as amended: `Resize(newSize)` always returns
`max (Len - newSize) 0`, stores `newSize` unnormalized, and evicts down
to `min Len (max newSize 0)` entries, one callback event per eviction:
`newSize = 0` (the unlimited value) is treated as a bound of zero by the
eviction loop, so it evicts every current entry and returns the old
length rather than 0. -/
theorem c5_resize_amended (c : LRU K V) (n : Int) (h : HeapOK c)
    (hcb : c.hasCb = true) :
    ∃ c' evts, Resize c n = some (max ((Len c : Int) - n) 0, c', evts) ∧
      c'.size = n ∧
      (c'.evictList.length : Int) = min (Len c : Int) (max n 0) ∧
      evts.length = Len c - c'.evictList.length := by
  obtain ⟨c1, evts, hloop, h1, h2, h3, h4, h5, h6⟩ :=
    resizeLoop_spec ((if (Len c : Int) - n < 0 then 0
      else (Len c : Int) - n).toNat) c h hcb
  have hlen : c1.evictList.length =
      c.evictList.length - ((if (Len c : Int) - n < 0 then 0
        else (Len c : Int) - n).toNat) := by
    rw [h5, List.length_take]; omega
  refine ⟨{ c1 with size := n }, evts, ?_, rfl, ?_, ?_⟩
  · rw [Resize_eq, hloop, Option.map_some']
    have he : (if (Len c : Int) - n < 0 then 0 else (Len c : Int) - n) =
        max ((Len c : Int) - n) 0 := by split <;> omega
    rw [he]
  · show (c1.evictList.length : Int) = min (Len c : Int) (max n 0)
    simp only [Len] at hlen ⊢
    rcases lt_or_le ((c.evictList.length : Int) - n) 0 with hd | hd
    · rw [if_pos hd] at hlen; omega
    · rw [if_neg (not_lt.2 hd)] at hlen; omega
  · show evts.length = Len c - c1.evictList.length
    simp only [Len] at hlen h6 ⊢
    rcases lt_or_le ((c.evictList.length : Int) - n) 0 with hd | hd
    · rw [if_pos hd] at hlen h6; omega
    · rw [if_neg (not_lt.2 hd)] at hlen h6; omega

/-- Witness for C5 at a concrete input: the one-entry state, resized to
the unlimited value 0; the returned count is 1 and one callback fires. -/
theorem c5_witness :
    ∃ c' evts,
      Resize resizeState 0 =
        some (max ((Len resizeState : Int) - 0) 0, c', evts) ∧
      c'.size = 0 ∧
      (c'.evictList.length : Int) = min (Len resizeState : Int) (max 0 0) ∧
      evts.length = Len resizeState - c'.evictList.length :=
  c5_resize_amended resizeState 0
    ⟨by decide, by intro id hid; fin_cases hid; exact ⟨_, rfl⟩⟩ rfl

/-- C10: `Resize` with a negative `newSize` returns `Len - newSize`,
strictly more than the number of entries actually removed (all `Len` of
them, the list having emptied), and stores the negative capacity itself
— a non-zero value, so the capacity check in `Set` (which only compares
against 0) subsequently treats the cache as bounded — whereas `NewLRU`
normalizes the same negative size to 0 (unlimited). -/
theorem c10_negative_resize (c : LRU K V) (n t : Int) (b : Bool)
    (h : HeapOK c) (hcb : c.hasCb = true) (hn : n < 0) :
    ∃ c' evts, Resize c n = some ((Len c : Int) - n, c', evts) ∧
      c'.size = n ∧ c'.size ≠ 0 ∧ c'.evictList = [] ∧
      evts.length = Len c ∧
      (Len c : Int) < (Len c : Int) - n ∧
      (NewLRU (K := K) (V := V) n t b).size = 0 := by
  obtain ⟨c1, evts, hloop, h1, h2, h3, h4, h5, h6⟩ :=
    resizeLoop_spec ((if (Len c : Int) - n < 0 then 0
      else (Len c : Int) - n).toNat) c h hcb
  have hd : ¬ ((Len c : Int) - n < 0) := by omega
  rw [if_neg hd] at hloop h5 h6
  have hz : c.evictList.length - ((Len c : Int) - n).toNat = 0 := by
    simp only [Len]; omega
  rw [hz, List.take_zero] at h5
  refine ⟨{ c1 with size := n }, evts, ?_, rfl, hn.ne, h5, ?_, by omega, ?_⟩
  · rw [Resize_eq, if_neg hd, hloop, Option.map_some']
  · simp only [Len] at h6 ⊢
    omega
  · simp [NewLRU, hn.le]

/-- Witness for C10 at a concrete input: the one-entry state resized to
-3 returns 4, removes the single entry, and leaves capacity -3. -/
theorem c10_witness :
    ∃ c' evts,
      Resize resizeState (-3) =
        some ((Len resizeState : Int) - (-3), c', evts) ∧
      c'.size = -3 ∧ c'.size ≠ 0 ∧ c'.evictList = [] ∧
      evts.length = Len resizeState ∧
      (Len resizeState : Int) < (Len resizeState : Int) - (-3) ∧
      (NewLRU (K := Int) (V := String) (-3) 7 true).size = 0 :=
  c10_negative_resize resizeState (-3) 7 true
    ⟨by decide, by intro id hid; fin_cases hid; exact ⟨_, rfl⟩⟩ rfl
    (by decide)

/-- C5 counterexample: on a well-formed one-entry state, `Resize(0)` —
`0` being the unlimited capacity value — returns 1 and fires the
eviction callback once (evicting the only entry), contradicting the
claim's "returns 0 ... when newSize means unbounded". -/
theorem c5_counterexample :
    Resize resizeState 0 =
      some (1, { resizeState with cache := [], evictList := [] },
            [((1 : Int), some "a")]) ∧
    (Resize resizeState 0).map Prod.fst ≠ some 0 := by
  decide

/-- C6 counterexample: on a well-formed one-entry state whose entry is
expired (`ttl = 5`, last updated 0, `now = 10`), `Peek` returns
`(nil, true)` while `Get` returns `(nil, false)`: the `(value, found)`
pairs differ, refuting "Peek(key) returns exactly the same (value,
found) pair that Get(key) would return". -/
theorem c6_counterexample :
    Peek expState 1 10 = some (none, true) ∧
    Get expState 1 10 = some ((none, false), expState) ∧
    Peek expState 1 10 ≠ (Get expState 1 10).map Prod.fst := by
  decide

/-- C6 as amended: `Peek` and `Get` agree — same `(value, found)` pair,
with `Peek` performing no mutation at all (it is a pure read, so it never
reorders the recency list) — for an absent key and for a present,
unexpired key with an intact handle (where `Get` additionally moves the
element to the front); but for a present-and-expired key they differ:
`Peek` falls through to `return nil, ok` with `ok = true`, while `Get`
returns `(nil, false)`. -/
theorem c6_peek_get_amended (c : LRU K V) (k : K) (now : Int) :
    (alookup k c.cache = none →
      Peek c k now = some (none, false) ∧
      Get c k now = some ((none, false), c)) ∧
    (∀ id e, alookup k c.cache = some (some id) → alookup id c.heap = some e →
      (expired c k now = some false → ∀ v, e.value = some v →
        Peek c k now = some (some v, true) ∧
        Get c k now = some ((some v, true),
          { c with evictList := moveToFront id c.evictList })) ∧
      (expired c k now = some true →
        Peek c k now = some (none, true) ∧
        Get c k now = some ((none, false), c))) := by
  refine ⟨fun h => ⟨?_, ?_⟩,
    fun id e hc hh => ⟨fun hex v hv => ⟨?_, ?_⟩, fun hex => ⟨?_, ?_⟩⟩⟩
  · simp [Peek, h]
  · simp [Get, h]
  · simp [Peek, hc, hex, hh, hv]
  · simp [Get, hc, hex, hh, hv]
  · simp [Peek, hc, hex]
  · simp [Get, hc, hex]

/-- Witness for C6 at a concrete input: the one-entry state at a time
before expiry; `Peek` and `Get` both report `("a", true)` and only `Get`
reorders. -/
theorem c6_witness :
    Peek expState 1 3 = some (some "a", true) ∧
    Get expState 1 3 = some ((some "a", true),
      { expState with evictList := moveToFront 0 expState.evictList }) :=
  ((c6_peek_get_amended expState 1 3).2 0 ⟨1, some "a", 0⟩
    (by decide) (by decide)).1 (by decide) "a" (by decide)

/-- C7: with bounded ttl and an intact handle for key `k`, `expired` is
exactly the strict comparison `ttl < now - updatedAt`; a `Get` at any
`now` with `now - updatedAt ≤ ttl` (in particular at `updatedAt + ttl`
itself) finds the value and promotes the element, and a `Get` at any
`now` with `now - updatedAt > ttl` returns not-found with the state
returned entirely unchanged — the entry stays in place, still indexed
and still counted by `Len`. -/
theorem c7_ttl_strict_boundary (c : LRU K V) (k : K) (id : Nat)
    (e : entry K V) (v : V) (hT : c.ttl ≠ 0)
    (hc : alookup k c.cache = some (some id))
    (hh : alookup id c.heap = some e)
    (hv : e.value = some v) :
    (∀ now, expired c k now = some (decide (c.ttl < now - e.updatedAt))) ∧
    (∀ now, now - e.updatedAt ≤ c.ttl →
      Get c k now = some ((some v, true),
        { c with evictList := moveToFront id c.evictList })) ∧
    (∀ now, c.ttl < now - e.updatedAt →
      Get c k now = some ((none, false), c)) := by
  have hexp : ∀ now, expired c k now =
      some (decide (c.ttl < now - e.updatedAt)) := by
    intro now
    simp only [expired, if_neg hT, hc, Option.bind_eq_bind, Option.some_bind,
      hh]
    rcases le_or_lt (now - e.updatedAt) c.ttl with hle | hlt
    · rw [if_pos hle, decide_eq_false (not_lt.2 hle)]
    · rw [if_neg (not_le.2 hlt), decide_eq_true hlt]
  refine ⟨hexp, fun now hle => ?_, fun now hlt => ?_⟩
  · have hex : expired c k now = some false := by
      rw [hexp now, decide_eq_false (not_lt.2 hle)]
    simp [Get, hc, hex, hh, hv]
  · have hex : expired c k now = some true := by
      rw [hexp now, decide_eq_true hlt]
    simp [Get, hc, hex]

/-- Witness for C7 at a concrete input: `ttl = 5`, entry updated at 0; a
`Get` at `now = 5` (exactly `updatedAt + ttl`) finds the entry, a `Get`
at `now = 6` does not and leaves the state unchanged. -/
theorem c7_witness :
    expired expState 1 5 = some false ∧
    Get expState 1 5 = some ((some "a", true),
      { expState with evictList := moveToFront 0 expState.evictList }) ∧
    Get expState 1 6 = some ((none, false), expState) := by
  have h := c7_ttl_strict_boundary expState 1 0 ⟨1, some "a", 0⟩ "a"
    (by decide) (by decide) (by decide) (by decide)
  refine ⟨?_, h.2.1 5 (by decide), h.2.2 6 (by decide)⟩
  rw [h.1 5]
  decide

/-- When the pointer chain for an entry is intact, `expired` (which
re-reads the index and heap) computes exactly `entryExpired`. -/
theorem expired_entry (c : LRU K V) (e : entry K V) (id : Nat)
    (hc : alookup e.key c.cache = some (some id))
    (hh : alookup id c.heap = some e) (now : Int) :
    expired c e.key now = some (entryExpired c e now) := by
  by_cases hT : c.ttl = 0
  · simp [expired, hT, entryExpired]
  · simp only [expired, if_neg hT, hc, Option.bind_eq_bind, Option.some_bind,
      hh]
    rcases le_or_lt (now - e.updatedAt) c.ttl with hle | hlt
    · rw [if_pos hle]
      unfold entryExpired
      rw [decide_eq_false (fun h => (not_lt.2 hle) h.2)]
    · rw [if_neg (not_le.2 hlt)]
      unfold entryExpired
      rw [decide_eq_true ⟨hT, hlt⟩]

theorem keysFrom_spec (c : LRU K V) (now : Int) :
    ∀ l : List Nat,
      (∀ id ∈ l, ∃ e, alookup id c.heap = some e ∧
        alookup e.key c.cache = some (some id)) →
      keysFrom c now l =
        some (((l.filterMap (fun id => alookup id c.heap)).takeWhile
          (fun e => !entryExpired c e now)).map (fun e => e.key)) := by
  intro l
  induction l with
  | nil => intro _; rfl
  | cons id rest ih =>
      intro H
      obtain ⟨e, hh, hc⟩ := H id (List.mem_cons_self id rest)
      have hex := expired_entry c e id hc hh now
      cases hexb : entryExpired c e now with
      | true =>
          rw [hexb] at hex
          simp [keysFrom, hh, hex, List.filterMap_cons, hexb]
      | false =>
          rw [hexb] at hex
          simp [keysFrom, hh, hex, List.filterMap_cons, hexb,
            ih (fun id' h' => H id' (List.mem_cons_of_mem _ h'))]

/-- C8: with intact pointer chains, `Keys` returns exactly the
spec-described traversal `KeysSpec`: keys oldest-to-newest, walking from
the back and halting at the first expired entry so that everything
nearer the front is excluded even if unexpired; and when no entry on the
list is expired it returns every key, oldest first. -/
theorem c8_keys_traversal (c : LRU K V) (now : Int)
    (H : ∀ id ∈ c.evictList, ∃ e, alookup id c.heap = some e ∧
      alookup e.key c.cache = some (some id)) :
    Keys c now = some (KeysSpec c now) ∧
    ((∀ id ∈ c.evictList, ∀ e, alookup id c.heap = some e →
        entryExpired c e now = false) →
      Keys c now = some ((c.evictList.reverse.filterMap
        (fun id => alookup id c.heap)).map (fun e => e.key))) := by
  have hmain := keysFrom_spec c now c.evictList.reverse
    (fun id h => H id (List.mem_reverse.1 h))
  constructor
  · exact hmain
  · intro hall
    refine hmain.trans ?_
    congr 1
    have hself : ∀ e ∈ c.evictList.reverse.filterMap
        (fun id => alookup id c.heap), (!entryExpired c e now) = true := by
      intro e he
      obtain ⟨id, hid, hfe⟩ := List.mem_filterMap.1 he
      simp [hall id (List.mem_reverse.1 hid) e hfe]
    rw [List.takeWhile_eq_self_iff.2 hself]

/-- Witness for C8 at concrete inputs: the three-entry state. At
`now = 10` the middle entry (from the back) is expired, so only the
oldest key `3` is returned, the unexpired key `1` near the front being
silently excluded; at `now = 1` nothing is expired and all keys come
back oldest first. -/
theorem c8_witness :
    Keys keysState 10 = some (KeysSpec keysState 10) ∧
    KeysSpec keysState 10 = [3] ∧
    Keys keysState 1 = some ((keysState.evictList.reverse.filterMap
      (fun id => alookup id keysState.heap)).map (fun e => e.key)) := by
  have hH : ∀ id ∈ keysState.evictList, ∃ e,
      alookup id keysState.heap = some e ∧
      alookup e.key keysState.cache = some (some id) := by
    intro id hid
    fin_cases hid <;> exact ⟨_, rfl, rfl⟩
  refine ⟨(c8_keys_traversal keysState 10 hH).1, by decide,
    (c8_keys_traversal keysState 1 hH).2 ?_⟩
  intro id hid e he
  fin_cases hid <;>
    · injection he with h
      subst h
      decide

end Simplelru
